import Mathlib

/-!
Verification development for the `mkdocs-static-i18n` plugin
(`src/mkdocs_static_i18n/plugin.py`).

The Python code is shallowly embedded: dicts that are used as ordered
key/value maps become association lists (`List (String × _)`, insertion
ordered, first binding wins on lookup, like a Python `dict` with unique
keys), stateful mutation becomes explicit state passing, and Python
exceptions become `Except`/`Option` results.  Each definition mirrors one
function (or one statement block) of the source file; deviations forced by
the embedding are noted in the doc comments.
-/

set_option autoImplicit false

namespace I18n

/-- First-match association-list lookup, the model of `d[k]` / `d.get(k)`
on a Python dict (whose keys are unique, so first match is the match). -/
def listLookup {β : Type} (l : List (String × β)) (k : String) : Option β :=
  match l with
  | [] => none
  | p :: rest => if p.1 = k then some p.2 else listLookup rest k

/-- Model of `d.pop(k, default)` on an ordered dict: the looked-up value
(if any) together with the dict with that binding removed. -/
def pyPop {β : Type} (l : List (String × β)) (k : String) :
    Option β × List (String × β) :=
  (listLookup l k, l.eraseP (fun p => decide (p.1 = k)))

/-- Model of Python `dict[k] = v`: replace the value in place if the key
exists (keeping its position), otherwise append the binding at the end. -/
def dictSet {β : Type} (l : List (String × β)) (k : String) (v : β) :
    List (String × β) :=
  if (listLookup l k).isSome then
    l.map (fun p => if p.1 = k then (p.1, v) else p)
  else
    l ++ [(k, v)]

/-- Model of Python `str.startswith` (on the underlying character lists,
to keep kernel evaluation structural). -/
def strStartsWith (pre s : String) : Bool :=
  pre.data.isPrefixOf s.data

/-- Model of Python `str.endswith`. -/
def strEndsWith (suf s : String) : Bool :=
  suf.data.reverse.isPrefixOf s.data.reverse

/-! ## Search index entries and `_fix_search_duplicates` (plugin.py 403-447) -/

/-- One search index entry, the `{title, location, text}` record consumed
by `_fix_search_duplicates`. -/
structure SearchEntry where
  title : String
  location : String
  text : String
deriving DecidableEq, Inhabited

/-- The predicate used by `_fix_search_duplicates` to split the index:
`x["location"].startswith(tuple(self.config["languages"].keys()))`.
An entry is locale-scoped when its location starts with one of the
configured locale identifiers as a raw character prefix. -/
def isLocaleScoped (langs : List String) (e : SearchEntry) : Bool :=
  langs.any (fun l => strStartsWith l e.location)

/-- The duplicate test of the inner `filter` in `_fix_search_duplicates`:
`x["title"] == d["title"] and x["location"].endswith(x["location"]) and
x["text"] == d["text"]`.  Note that the source compares `x["location"]`
with itself, so the middle conjunct is always true (the spec calls the
location test "a best-effort secondary signal, not load-bearing"). -/
def entryMatches (d x : SearchEntry) : Bool :=
  x.title = d.title && strEndsWith x.location x.location && x.text = d.text

/-- Model of Python `list.remove(x)`: remove the first element equal to
`x` (identity removal coincides with this because entries are compared by
value). -/
def pyRemove (l : List SearchEntry) (x : SearchEntry) : List SearchEntry :=
  match l with
  | [] => []
  | a :: rest => if a = x then rest else a :: pyRemove rest x

/-- The inner loop of `_fix_search_duplicates` for one default-scoped
entry `d`: walk the (snapshot) list of locale-scoped entries and remove
each matching one from the live index if still present. -/
def processDefaultEntry (targets : List SearchEntry) (d : SearchEntry)
    (live : List SearchEntry) : List SearchEntry :=
  targets.foldl
    (fun live x =>
      if entryMatches d x then (if x ∈ live then pyRemove live x else live)
      else live)
    live

/-- The outer loop of `_fix_search_duplicates`.  In the source,
`default_lang_entries` is a lazy `filter` over the very list that the
inner loop mutates; CPython's list iterator keeps a bare index into the
list, so removing an element at a position before the cursor shifts the
remaining elements one slot left under the iterator.  The embedding
therefore carries the explicit cursor `idx` and does not adjust it when
the inner loop shortens `live`.  `fuel` only bounds the recursion: the
cursor grows by one per step and the list never grows, so
`fuel = entries.length` steps always reach `idx ≥ live.length`. -/
def dedupLoop (langs : List String) (targets : List SearchEntry) :
    Nat → List SearchEntry → Nat → List SearchEntry
  | 0, live, _ => live
  | fuel + 1, live, idx =>
    if h : idx < live.length then
      let e := live.get ⟨idx, h⟩
      if isLocaleScoped langs e then
        dedupLoop langs targets fuel live (idx + 1)
      else
        dedupLoop langs targets fuel (processDefaultEntry targets e live) (idx + 1)
    else
      live

/-- Model of `I18n._fix_search_duplicates` (plugin.py 403-447), acting on
the list of search index entries.  `langs` is
`self.config["languages"].keys()` (which, at the time this runs, always
contains the default locale identifier as well).  The locale-scoped
snapshot `target_lang_entries` is taken up front, as in the source. -/
def fix_search_duplicates (langs : List String) (entries : List SearchEntry) :
    List SearchEntry :=
  dedupLoop langs (entries.filter (isLocaleScoped langs)) entries.length entries 0

/-- Concrete entries exercising the deduplicator.  `entL1` duplicates
`entD2` but sits before it in the index; `entL3` duplicates `entD3`. -/
def entD1 : SearchEntry := ⟨"A", "alpha/", "ta"⟩

def entL1 : SearchEntry := ⟨"B", "fr/beta/", "tb"⟩

def entD2 : SearchEntry := ⟨"B", "beta/", "tb"⟩

def entD3 : SearchEntry := ⟨"C", "gamma/", "tc"⟩

def entL3 : SearchEntry := ⟨"C", "fr/gamma/", "tc"⟩

/-- The index holding the two duplicate pairs above. -/
def exEntries : List SearchEntry := [entD1, entL1, entD2, entD3, entL3]

/-- The configured locale identifiers of the example (default `en` plus
`fr`; after `_set_languages_options` the default is always a key). -/
def exLangs : List String := ["en", "fr"]

/-- A default-locale page whose location happens to begin with the
characters of the locale code `fr`. -/
def entFriends : SearchEntry := ⟨"Friends", "friends/", "tf"⟩

/-- A default-scoped entry with the same title and text as `entFriends`. -/
def entAboutFriends : SearchEntry := ⟨"Friends", "about/", "tf"⟩

/-- Index for the raw-prefix classification example of C10. -/
def exEntriesFriends : List SearchEntry := [entAboutFriends, entFriends]

/-! ## Locale options and `_set_languages_options` (plugin.py 133-181) -/

/-- The per-locale options dict produced by the `Locale` config validator
(the keys `plugin.py` reads at lines 138-181: `name`, `link`,
`fixed_link`, `build`, `site_name`). -/
structure LangOptions where
  name : String
  link : String
  fixed_link : Option String
  build : Bool
  site_name : Option String
deriving DecidableEq, Inhabited

/-- Model of the Python expression `v or default` for an optional string
`v`: both `None` and the empty string are falsy. -/
def pyOrStr (v : Option String) (d : String) : String :=
  match v with
  | none => d
  | some s => if s = "" then d else s

/-- The `site_name` back-fill loop of plugin.py 138-140: each locale's
`site_name` falls back to the global `config["site_name"]` when falsy. -/
def backfillSiteName (site : String) (p : String × LangOptions) : String × LangOptions :=
  (p.1, { p.2 with site_name := some (pyOrStr p.2.site_name site) })

/-- The state `_set_languages_options` leaves on the plugin: the updated
`self.config["languages"]` mapping and `self.default_language_options`. -/
structure SLOState where
  languages : List (String × LangOptions)
  default_language_options : LangOptions
deriving DecidableEq

/-- Model of `I18n._set_languages_options` (plugin.py 133-181).
`site_name` is `config["site_name"]` of the mkdocs configuration.
Mirrors the source step by step: back-fill every locale's `site_name`,
pop the `"default"` pseudo-entry (with the literal fallback dict of lines
145-151), back-fill the default options from the default locale's entry
when their name is still `"default"`, and finally synthesize an entry for
the default locale — `build` true exactly when no other locale remains —
when it is not itself a key of the mapping. -/
def set_languages_options (languages : List (String × LangOptions))
    (default_language : String) (site_name : String) : SLOState :=
  let languages := languages.map (backfillSiteName site_name)
  let popped := pyPop languages "default"
  let languages := popped.2
  let dlo := popped.1.getD
    { name := "default", link := "./", fixed_link := none, build := true,
      site_name := some site_name }
  let dlo :=
    if dlo.name = "default" then
      match listLookup languages default_language with
      | some c =>
          { dlo with name := c.name, site_name := c.site_name,
                     fixed_link := c.fixed_link }
      | none =>
          { dlo with name := default_language, site_name := some site_name,
                     fixed_link := none }
    else dlo
  let languages :=
    if (listLookup languages default_language).isSome then languages
    else
      languages ++ [(default_language,
        { name := dlo.name, link := "./", fixed_link := none,
          build := languages.isEmpty, site_name := some site_name })]
  ⟨languages, dlo⟩

/-- The order-preserving deduplication loop of plugin.py 191-194
(`if language not in all_languages: append`). -/
def pyDedup (l : List String) : List String :=
  l.foldl (fun acc x => if x ∈ acc then acc else acc ++ [x]) []

/-- Model of the `all_languages` computation of `on_config`
(plugin.py 190-196): deduplicated key list of `self.config["languages"]`,
with the default locale inserted at the front when absent. -/
def computeAllLanguages (languagesKeys : List String)
    (default_language : String) : List String :=
  let all := pyDedup languagesKeys
  if default_language ∈ all then all else default_language :: all

/-- The composition `on_config` actually runs (plugin.py 188-196):
`_set_languages_options` first, then the `all_languages` loop over the
updated mapping. -/
def onConfigAllLanguages (languages : List (String × LangOptions))
    (default_language : String) (site_name : String) : List String :=
  computeAllLanguages
    ((set_languages_options languages default_language site_name).languages.map Prod.fst)
    default_language

/-- The configured locale identifiers other than the `"default"`
pseudo-entry (the keys counted by the `len(self.config["languages"])`
test of plugin.py 171). -/
def otherLocaleKeys (languages : List (String × LangOptions)) : List String :=
  (pyPop languages "default").2.map Prod.fst

/-- The options record for `{"fr": "français"}` after `Locale`
validation. -/
def frOpts : LangOptions :=
  { name := "français", link := "./fr/", fixed_link := none, build := true,
    site_name := none }

/-! ## Navigation titles and `_maybe_translate_titles` (plugin.py 368-386) -/

/-- One navigation node: `title` is `none` when the node has no usable
title (`hasattr(item, "title")` false, or the title is `None` — neither is
ever a key of the translation table, so both behave identically in the
source); `children` is empty when the node has no (or an empty) child
list, which the source treats alike (`item.children` falsy). -/
inductive NavItem where
  | mk : Option String → List NavItem → NavItem

/-- The title of a navigation node. -/
def NavItem.title : NavItem → Option String
  | .mk t _ => t

/-- The children of a navigation node. -/
def NavItem.children : NavItem → List NavItem
  | .mk _ c => c

/-- The title step of `_maybe_translate_titles`' loop (plugin.py
373-380): replace the title when it is a key of the table and report
whether a translation happened. -/
def translateTitle (table : List (String × String)) :
    Option String → Option String × Bool
  | some s =>
    match listLookup table s with
    | some t => (some t, true)
    | none => (some s, false)
  | none => (none, false)

/-- The body of `_maybe_translate_titles`' loop, for a nonempty
translation table: translate each item's title when it is a key of the
table, recurse into nonempty child lists (plugin.py 381-385), and
accumulate the `translated` flag. -/
def translateItems (table : List (String × String)) :
    List NavItem → List NavItem × Bool
  | [] => ([], false)
  | NavItem.mk title children :: rest =>
    (NavItem.mk (translateTitle table title).1
        (if children.isEmpty then children else (translateItems table children).1) ::
      (translateItems table rest).1,
     ((if children.isEmpty then false else (translateItems table children).2) ||
        (translateTitle table title).2) || (translateItems table rest).2)

/-- Model of `I18n._maybe_translate_titles` (plugin.py 368-386): look the
locale up in `nav_translations` (empty table when absent) and, when the
table is nonempty, run the translation loop; otherwise leave the items
untouched and report `False`. -/
def maybe_translate_titles (nav_translations : List (String × List (String × String)))
    (language : String) (items : List NavItem) : List NavItem × Bool :=
  let table := (listLookup nav_translations language).getD []
  if table.isEmpty then (items, false) else translateItems table items

/-- Flatten the titles of a navigation tree in preorder (used to state
facts about "the titles on every node"). -/
def titlesOf : List NavItem → List (Option String)
  | [] => []
  | NavItem.mk title children :: rest =>
    title :: (titlesOf children ++ titlesOf rest)
termination_by items => sizeOf items

/-- Model of the `nav_translations` sanity check of `on_config`
(plugin.py 311-322): when the option is nonempty and no configured locale
is a key of it, log (`true` in the second component) and empty the
option; otherwise leave it alone. -/
def checkNavTranslations (languagesKeys : List String)
    (nav_translations : List (String × List (String × String))) :
    List (String × List (String × String)) × Bool :=
  if nav_translations.isEmpty then (nav_translations, false)
  else if languagesKeys.any (fun lang => (listLookup nav_translations lang).isSome) then
    (nav_translations, false)
  else ([], true)

/-- A chained translation table: the translated title `B` is itself a
source title. -/
def chainTable : List (String × String) := [("A", "B"), ("B", "C")]

/-- A one-node navigation tree titled `A`. -/
def navA : List NavItem := [NavItem.mk (some "A") []]

/-! ## Search plugin `lang` reconfiguration (plugin.py 295-310) -/

/-- The `LUNR_LANGUAGES` constant of plugin.py 38-58. -/
def LUNR_LANGUAGES : List String :=
  ["ar", "da", "de", "en", "es", "fi", "fr", "hu", "it", "ja", "nl", "no",
   "pt", "ro", "ru", "sv", "th", "tr", "vi"]

/-- One iteration of the search `lang` loop (plugin.py 299-310): a
supported locale is appended when not yet listed, an unsupported one is
added to the warned list. -/
def searchLangStep (acc : List String × List String) (language : String) :
    List String × List String :=
  if language ∈ LUNR_LANGUAGES then
    if language ∈ acc.1 then acc else (acc.1 ++ [language], acc.2)
  else (acc.1, acc.2 ++ [language])

/-- Model of the search-plugin `lang` reconfiguration of `on_config`
(plugin.py 295-310).  `pluginLang` is `search_plugin.config["lang"]`
(`none` for Python `None`).  The source does
`search_langs = search_plugin.config["lang"] or []`: a non-empty list is
aliased, so the appends mutate the plugin's own option, while `None` or
`[]` yields a fresh list whose appends never reach the plugin config.
Returns the plugin's `lang` option after the loop together with the list
of locales warned about as unsupported. -/
def searchReconfigure (all_languages : List String)
    (pluginLang : Option (List String)) :
    Option (List String) × List String :=
  let initial := (pluginLang.getD [])
  let res := all_languages.foldl searchLangStep (initial, [])
  (match pluginLang with
   | some l => if l.isEmpty then some l else some res.1
   | none => none,
   res.2)

/-! ## Configuration values and `_dict_replace_value` / `_list_replace_value`
(plugin.py 93-131) -/

/-- The closed set of configuration-tree values the substitution pass
handles: strings, `pathlib` paths (carrying their construction string),
nested dicts and nested lists.  Any other Python value would be passed
through untouched by the source's `isinstance` chain and plays no role in
the claims. -/
inductive PyVal where
  | str : String → PyVal
  | path : String → PyVal
  | dict : List (String × PyVal) → PyVal
  | list : List PyVal → PyVal

/-- Auxiliary structural split on `/` for the `pathlib` model (the model
of Python `s.split("/")`). -/
def splitOnSlash : List Char → List Char → List (List Char)
  | [], acc => [acc.reverse]
  | c :: rest, acc =>
    if c = '/' then acc.reverse :: splitOnSlash rest []
    else splitOnSlash rest (c :: acc)

/-- Model of `str(PurePosixPath(s))`: drop empty and `.` components,
keep a root of `/` (or the special POSIX double-slash root `//`), and
render `.` for an empty relative path.  Validated against CPython's
`pathlib` on the edge cases (`a//b`, `./x`, empty, trailing slash,
`//a` vs `///a`, `..`). -/
def pathNormChars (cs : List Char) : List Char :=
  let comps := (splitOnSlash cs []).filter (fun c => !(c == [] || c == ['.']))
  let root : List Char :=
    match cs with
    | '/' :: '/' :: '/' :: _ => ['/']
    | '/' :: '/' :: _ => ['/', '/']
    | '/' :: _ => ['/']
    | _ => []
  if root.isEmpty && comps.isEmpty then ['.']
  else root ++ List.intercalate ['/'] comps

/-- String-level wrapper of `pathNormChars`. -/
def pathNorm (s : String) : String :=
  ⟨pathNormChars s.data⟩

/-- Model of Python `str(v)` on the values the substitution pass feeds to
it: a string renders as itself, a `Path` as its normalized textual form
(pathlib normalizes at construction). -/
def pyStrOf : PyVal → Option String
  | .str s => some s
  | .path s => some (pathNorm s)
  | _ => none

/-- Model of `I18n._is_url` (plugin.py 93-95):
`value.startswith("http://") or value.startswith("https://")`.  Only a
string has a `startswith` attribute; calling it on a `Path` (or any
non-string) raises `AttributeError`, which the model surfaces as an
error. -/
def is_url : PyVal → Except String Bool
  | .str s => .ok (strStartsWith "http://" s || strStartsWith "https://" s)
  | _ => .error "AttributeError: object has no attribute startswith"

/-- The shared str/Path branch of `_dict_replace_value` and
`_list_replace_value` (plugin.py 107-111 and 125-129): replace the value
by `new` when its `str()` equals `str(old)`, then — unless `_is_url`
says it is a URL (or raises) — re-render it as `str(Path(v))`. -/
def replaceLeaf (old new : PyVal) (v : PyVal) : Except String PyVal := do
  let v := if pyStrOf v = pyStrOf old then new else v
  if (← is_url v) then pure v
  else
    match pyStrOf v with
    | some s => pure (.str (pathNorm s))
    | none => pure v

mutual

/-- Model of `I18n._dict_replace_value` (plugin.py 97-113): rebuild the
dict, recursing into nested dicts and lists and applying the str/Path
leaf transformation; a raised `AttributeError` propagates. -/
def dict_replace_value (old new : PyVal) :
    List (String × PyVal) → Except String (List (String × PyVal))
  | [] => pure []
  | (k, v) :: rest => do
    let v' ←
      match v with
      | .dict d => do pure (PyVal.dict (← dict_replace_value old new d))
      | .list l => do pure (PyVal.list (← list_replace_value old new l))
      | .str s => replaceLeaf old new (.str s)
      | .path s => replaceLeaf old new (.path s)
    let rest' ← dict_replace_value old new rest
    pure ((k, v') :: rest')

/-- Model of `I18n._list_replace_value` (plugin.py 115-131). -/
def list_replace_value (old new : PyVal) :
    List PyVal → Except String (List PyVal)
  | [] => pure []
  | v :: rest => do
    let v' ←
      match v with
      | .list l => do pure (PyVal.list (← list_replace_value old new l))
      | .dict d => do pure (PyVal.dict (← dict_replace_value old new d))
      | .str s => replaceLeaf old new (.str s)
      | .path s => replaceLeaf old new (.path s)
    let rest' ← list_replace_value old new rest
    pure (v' :: rest')

end

mutual

/-- A tree contains no `Path` leaf. -/
def noPathLeaf : PyVal → Bool
  | .str _ => true
  | .path _ => false
  | .dict d => noPathLeafDict d
  | .list l => noPathLeafList l

/-- `noPathLeaf` over dict entries. -/
def noPathLeafDict : List (String × PyVal) → Bool
  | [] => true
  | (_, v) :: rest => noPathLeaf v && noPathLeafDict rest

/-- `noPathLeaf` over list elements. -/
def noPathLeafList : List PyVal → Bool
  | [] => true
  | v :: rest => noPathLeaf v && noPathLeafList rest

end

/-- Modelled from the spec's description of the substitution pass (the
"spec side" of the refinement for C5): the per-leaf transformation the
spec describes — substitute any value string-equal to the replace target
with the replacement, leave URL-like strings unmodified, normalize the
textual form of everything else. -/
def specLeaf (oldStr : Option String) (newStr : String) (s : String) : String :=
  let s := if some s = oldStr then newStr else s
  if strStartsWith "http://" s || strStartsWith "https://" s then s
  else pathNorm s

mutual

/-- The spec-side transformation over a whole value tree (a `Path` leaf
is rendered through its normalized textual form; the amended claim only
compares the two sides on `Path`-free trees, where the code does not
raise). -/
def specReplace (oldStr : Option String) (newStr : String) : PyVal → PyVal
  | .str s => .str (specLeaf oldStr newStr s)
  | .path s => .str (specLeaf oldStr newStr (pathNorm s))
  | .dict d => .dict (specReplaceDict oldStr newStr d)
  | .list l => .list (specReplaceList oldStr newStr l)

/-- `specReplace` over dict entries. -/
def specReplaceDict (oldStr : Option String) (newStr : String) :
    List (String × PyVal) → List (String × PyVal)
  | [] => []
  | (k, v) :: rest => (k, specReplace oldStr newStr v) :: specReplaceDict oldStr newStr rest

/-- `specReplace` over list elements. -/
def specReplaceList (oldStr : Option String) (newStr : String) :
    List PyVal → List PyVal
  | [] => []
  | v :: rest => specReplace oldStr newStr v :: specReplaceList oldStr newStr rest

end


/-! ## Per-locale config cloning (plugin.py 209-224) and `on_env`
(plugin.py 449-461)

The aliasing structure of the source is made explicit with a small
object store: every top-level configuration field is a mutable cell
(an address, a plain natural), `deepcopy` allocates a fresh cell
per field holding a copy of the value, and the popped `plugins` / `hooks`
fields (and later the render environment) are re-attached as the very
same cell in every per-locale copy and in the base. -/

/-- The object store: a cell address is a plain natural number `r`, and
cell `r` holds `cells.getD r default`. -/
structure Heap (V : Type) where
  cells : List V
deriving DecidableEq

/-- Read the value of a cell. -/
def Heap.read {V : Type} [Inhabited V] (h : Heap V) (r : Nat) : V :=
  h.cells.getD r default

/-- Allocate a fresh cell holding `v`. -/
def Heap.alloc {V : Type} (h : Heap V) (v : V) : Heap V × Nat :=
  (⟨h.cells ++ [v]⟩, h.cells.length)

/-- Overwrite the value of a cell (the model of mutating the object the
cell holds). -/
def Heap.write {V : Type} (h : Heap V) (r : Nat) (v : V) : Heap V :=
  ⟨h.cells.set r v⟩

/-- A configuration dict: ordered field names bound to cells. -/
abbrev CfgDict := List (String × Nat)

/-- Read a configuration field through the store. -/
def readField {V : Type} [Inhabited V] (h : Heap V) (c : CfgDict) (k : String) :
    Option V :=
  (listLookup c k).map h.read

/-- Model of `deepcopy(config)` at field granularity (plugin.py 218):
every field of the copy is a freshly allocated cell holding a copy of the
base field's value. -/
def deepcopyCfg {V : Type} [Inhabited V] : Heap V → CfgDict → Heap V × CfgDict
  | h, [] => (h, [])
  | h, kv :: rest =>
    let ar := h.alloc (h.read kv.2)
    let dc := deepcopyCfg ar.1 rest
    (dc.1, (kv.1, ar.2) :: dc.2)

/-- The per-language loop of plugin.py 217-221: deep-copy the stripped
config and re-attach the shared `plugins` (and truthy `hooks`) cells,
which the copy appends at the end exactly like Python dict assignment of
a missing key. -/
def cloneLoop {V : Type} [Inhabited V] (c2 : CfgDict) (tail : CfgDict) :
    Heap V → List String → Heap V × List (String × CfgDict)
  | h, [] => (h, [])
  | h, lang :: rest =>
    let dc := deepcopyCfg h c2
    let cl := cloneLoop c2 tail dc.1 rest
    (cl.1, (lang, dc.2 ++ tail) :: cl.2)

/-- The result of the cloning pass: the per-locale configs
(`self.i18n_configs`), the restored base config, and the store. -/
structure CloneResult (V : Type) where
  i18n_configs : List (String × CfgDict)
  base : CfgDict
  heap : Heap V
deriving DecidableEq

/-- The `if hooks:` truthiness test on the popped hooks value
(plugin.py 220): a falsy (or absent) hooks value is not re-attached. -/
def hooksSharedOf {V : Type} [Inhabited V] (truthy : V → Bool) (h : Heap V)
    (hooksRef? : Option Nat) : Option Nat :=
  match hooksRef? with
  | some r => if truthy (h.read r) then some r else none
  | none => none

/-- The shared bindings re-attached to every copy and to the base
(plugin.py 219-224): the `plugins` cell always, the `hooks` cell when
present and truthy; dict assignment of a missing key appends, in this
order. -/
def tailOf (pluginsRef : Nat) (hooksShared : Option Nat) : CfgDict :=
  ("plugins", pluginsRef) ::
    (match hooksShared with
     | some r => [("hooks", r)]
     | none => [])

/-- Model of the config-cloning block of `on_config` (plugin.py 209-224):
pop `hooks` (when present) and `plugins` from the base config, deep-copy
the remainder once per language, re-attach the shared cells to every copy
and to the base.  `truthy` models the `if hooks:` test on the popped
hooks value (a falsy hooks value is dropped everywhere, as in the
source); a missing `plugins` key is a Python `KeyError`, rendered as
`none`. -/
def cloneConfigs {V : Type} [Inhabited V] (truthy : V → Bool)
    (allLangs : List String) (config : CfgDict) (h : Heap V) :
    Option (CloneResult V) :=
  let ph := pyPop config "hooks"
  match pyPop ph.2 "plugins" with
  | (none, _) => none
  | (some pluginsRef, c2) =>
    let tail := tailOf pluginsRef (hooksSharedOf truthy h ph.1)
    let cl := cloneLoop c2 tail h allLangs
    some ⟨cl.2, c2 ++ tail, cl.1⟩

/-- Model of `I18n.on_env` (plugin.py 449-461): store the single render
environment cell into every per-locale config (the loop runs over the
`languages` keys, every one of which owns a per-locale config). -/
def onEnvAssign (i18n_configs : List (String × CfgDict))
    (languagesKeys : List String) (envRef : Nat) :
    List (String × CfgDict) :=
  i18n_configs.map
    (fun p => if p.1 ∈ languagesKeys then (p.1, dictSet p.2 "env" envRef) else p)

/-- Closed-form helper (not a source model): the field dict produced by
deep-copying `c` when the fresh cells start at address `start`. -/
def mkCopyFields (start : Nat) : CfgDict → CfgDict
  | [] => []
  | kv :: rest => (kv.1, start) :: mkCopyFields (start + 1) rest

/-- Closed-form helper (not a source model): the per-language copies
produced by `cloneLoop`, the `i`-th copy using the fresh cells starting
at `start + i * c2.length`. -/
def mkCopies (c2 : CfgDict) (tail : CfgDict) :
    Nat → List String → List (String × CfgDict)
  | _, [] => []
  | start, lang :: rest =>
    (lang, mkCopyFields start c2 ++ tail) :: mkCopies c2 tail (start + c2.length) rest

/-- A concrete base configuration for the cloning example: two plain
fields plus the shared `plugins` and `hooks`. -/
def exCloneCfg : CfgDict := [("site_name", 0), ("plugins", 1), ("hooks", 2), ("nav", 3)]

/-- The store backing `exCloneCfg`. -/
def exCloneHeap : Heap Nat := ⟨[10, 20, 30, 40]⟩

/-- The `en` copy produced by cloning `exCloneCfg` for locales
`["en", "fr"]`: fresh cells 4 and 5, shared `plugins` and `hooks`. -/
def exCopyEn : CfgDict := [("site_name", 4), ("nav", 5), ("plugins", 1), ("hooks", 2)]

/-- The `fr` copy: fresh cells 6 and 7, same shared cells. -/
def exCopyFr : CfgDict := [("site_name", 6), ("nav", 7), ("plugins", 1), ("hooks", 2)]

/-- The full cloning result on the example: per-locale copies, restored
base, and the store extended with the copied values. -/
def exCloneRes : CloneResult Nat :=
  ⟨[("en", exCopyEn), ("fr", exCopyFr)],
   [("site_name", 0), ("nav", 3), ("plugins", 1), ("hooks", 2)],
   ⟨[10, 20, 30, 40, 10, 40, 10, 40]⟩⟩


/-! ## Helper lemmas about the dict model -/

theorem listLookup_eq_none_iff {β : Type} (l : List (String × β)) (k : String) :
    listLookup l k = none ↔ k ∉ l.map Prod.fst := by
  induction l with
  | nil => simp [listLookup]
  | cons p rest ih =>
    by_cases hp : p.1 = k
    · simp [listLookup, hp]
    · simp only [listLookup, if_neg hp, List.map_cons, List.mem_cons, ih]
      constructor
      · intro h hk
        rcases hk with hk | hk
        · exact hp hk.symm
        · exact h hk
      · intro h hk
        exact h (Or.inr hk)

theorem listLookup_isSome_iff {β : Type} (l : List (String × β)) (k : String) :
    (listLookup l k).isSome = true ↔ k ∈ l.map Prod.fst := by
  rw [← Decidable.not_iff_not, ← listLookup_eq_none_iff]
  cases listLookup l k <;> simp

theorem listLookup_append_right {β : Type} (l1 l2 : List (String × β)) (k : String)
    (h : k ∉ l1.map Prod.fst) : listLookup (l1 ++ l2) k = listLookup l2 k := by
  induction l1 with
  | nil => rfl
  | cons p rest ih =>
    simp only [List.map_cons, List.mem_cons] at h
    push_neg at h
    simp [listLookup, Ne.symm h.1, ih h.2]

theorem backfillSiteName_fst (site : String) (p : String × LangOptions) :
    (backfillSiteName site p).1 = p.1 := rfl

theorem map_fst_backfill (site : String) (l : List (String × LangOptions)) :
    (l.map (backfillSiteName site)).map Prod.fst = l.map Prod.fst := by
  induction l with
  | nil => rfl
  | cons p rest ih => simp [backfillSiteName_fst, ih]

theorem eraseP_backfill (site : String) (l : List (String × LangOptions)) (k : String) :
    (l.map (backfillSiteName site)).eraseP (fun p => decide (p.1 = k)) =
      (l.eraseP (fun p => decide (p.1 = k))).map (backfillSiteName site) := by
  induction l with
  | nil => rfl
  | cons p rest ih =>
    by_cases hp : p.1 = k <;>
      simp [List.eraseP_cons, backfillSiteName_fst, hp, ih]

theorem pyDedup_aux (l : List String) (hl : l.Nodup) :
    ∀ acc : List String, (∀ x ∈ l, x ∉ acc) →
      l.foldl (fun acc x => if x ∈ acc then acc else acc ++ [x]) acc = acc ++ l := by
  induction l with
  | nil => simp
  | cons x rest ih =>
    intro acc hdisj
    simp only [List.foldl_cons]
    rw [if_neg (hdisj x (by simp))]
    rw [ih (List.Nodup.of_cons hl) (acc ++ [x]) ?_]
    · simp
    · intro y hy
      simp only [List.mem_append, List.mem_singleton]
      push_neg
      exact ⟨hdisj y (by simp [hy]), fun hxy => (List.nodup_cons.mp hl).1 (hxy ▸ hy)⟩

theorem pyDedup_eq_self (l : List String) (hl : l.Nodup) : pyDedup l = l := by
  simpa [pyDedup] using pyDedup_aux l hl [] (by simp)

/-! ## C1, C7, C10: the search deduplicator -/

/-- C1 (code_bug evidence): the claim — an entry is removed if and only
if it is locale-scoped and duplicates a default-scoped entry — fails on
the concrete index `exEntries`: `entL3` is locale-scoped and has the same
title and text as the default-scoped `entD3`, which is in the index, yet
`entL3` survives `_fix_search_duplicates`.  The removal of `entL1`
(position 1) during the lazily-evaluated iteration over the live list
shifts the list under the iterator's cursor, so `entD3` is never
examined.  The "no default-scoped entry is removed" part does hold here:
the run removes exactly `entL1`. -/
theorem c1_dedup_misses_locale_duplicate :
    isLocaleScoped exLangs entL3 = true ∧
    isLocaleScoped exLangs entD3 = false ∧
    entL3.title = entD3.title ∧ entL3.text = entD3.text ∧
    entD3 ∈ exEntries ∧ entL3 ∈ exEntries ∧
    fix_search_duplicates exLangs exEntries = [entD1, entD2, entD3, entL3] ∧
    entL3 ∈ fix_search_duplicates exLangs exEntries := by
  decide

/-- C7 (code_bug evidence): the claim — running the deduplicator twice
removes nothing further — fails on `exEntries`: the first run leaves the
duplicate `entL3` behind (its default-scoped partner was skipped by the
shifted iterator) and the second run removes it. -/
theorem c7_dedup_not_idempotent :
    entL3 ∈ fix_search_duplicates exLangs exEntries ∧
    entL3 ∉ fix_search_duplicates exLangs (fix_search_duplicates exLangs exEntries) ∧
    fix_search_duplicates exLangs (fix_search_duplicates exLangs exEntries) ≠
      fix_search_duplicates exLangs exEntries := by
  decide

/-- C10: the deduplicator classifies an entry as locale-scoped exactly
when its location starts with some configured locale identifier as a raw
character prefix (no path separator required), and consequently a
default-locale page located at `friends/` with locale `fr` configured is
classified locale-scoped and is in fact removed as a duplicate of a
default-scoped entry with the same title and text. -/
theorem c10_locale_scoped_is_raw_character_prefix :
    (∀ (langs : List String) (e : SearchEntry),
      isLocaleScoped langs e = true ↔ ∃ l ∈ langs, l.data <+: e.location.data) ∧
    (isLocaleScoped exLangs entFriends = true ∧
     isLocaleScoped exLangs entAboutFriends = false ∧
     entFriends ∈ exEntriesFriends ∧
     entFriends ∉ fix_search_duplicates exLangs exEntriesFriends) := by
  constructor
  · intro langs e
    simp [isLocaleScoped, strStartsWith, List.any_eq_true, List.isPrefixOf_iff_prefix]
  · decide


/-! ## C2, C3: `_set_languages_options` and `all_languages` -/

theorem slo_languages_keys (languages : List (String × LangOptions))
    (d site : String) :
    (set_languages_options languages d site).languages.map Prod.fst =
      if d ∈ otherLocaleKeys languages then otherLocaleKeys languages
      else otherLocaleKeys languages ++ [d] := by
  unfold set_languages_options otherLocaleKeys pyPop
  simp only [eraseP_backfill]
  by_cases hd : d ∈ (languages.eraseP (fun p => decide (p.1 = "default"))).map Prod.fst
  · have hs : (listLookup ((languages.eraseP
        (fun p => decide (p.1 = "default"))).map (backfillSiteName site)) d).isSome = true := by
      rw [listLookup_isSome_iff, map_fst_backfill]
      exact hd
    simp [hs, map_fst_backfill, hd, backfillSiteName]
  · have hs : (listLookup ((languages.eraseP
        (fun p => decide (p.1 = "default"))).map (backfillSiteName site)) d) = none := by
      rw [listLookup_eq_none_iff, map_fst_backfill]
      exact hd
    simp [hs, map_fst_backfill, hd, backfillSiteName]

/-- C2: when the default locale identifier is not a key of the configured
`languages` mapping, `_set_languages_options` synthesizes an entry for it
whose `build` flag is true exactly when the mapping holds no other locale
(nothing besides a possible `"default"` pseudo-entry), and false when at
least one other locale is configured. -/
theorem c2_default_language_synthesized (languages : List (String × LangOptions))
    (d site : String) (h : d ∉ languages.map Prod.fst) :
    (listLookup (set_languages_options languages d site).languages d).map LangOptions.build
      = some (pyPop languages "default").2.isEmpty := by
  unfold set_languages_options pyPop
  simp only [eraseP_backfill]
  have hkeys : d ∉ ((languages.eraseP (fun p => decide (p.1 = "default"))).map
      (backfillSiteName site)).map Prod.fst := by
    rw [map_fst_backfill]
    intro hmem
    exact h (List.Sublist.subset (List.Sublist.map Prod.fst (List.eraseP_sublist languages)) hmem)
  have hnone : (listLookup ((languages.eraseP (fun p => decide (p.1 = "default"))).map
      (backfillSiteName site)) d) = none := by
    rw [listLookup_eq_none_iff]
    exact hkeys
  simp only [hnone, Option.isSome_none, Bool.false_eq_true, if_false]
  rw [listLookup_append_right _ _ _ hkeys]
  simp only [listLookup, if_pos rfl, Option.map_some]
  cases hE : languages.eraseP (fun p => decide (p.1 = "default")) <;> simp [hE]

/-- Witness for C2 at the scenario of the spec (`languages = {fr: ...}`,
default `en`): the synthesized default entry has `build = false` because
one other locale is configured. -/
theorem c2_witness :
    (listLookup (set_languages_options [("fr", frOpts)] "en" "My Site").languages "en").map
        LangOptions.build = some (pyPop [("fr", frOpts)] "default").2.isEmpty ∧
    (pyPop [("fr", frOpts)] "default").2.isEmpty = false :=
  ⟨c2_default_language_synthesized [("fr", frOpts)] "en" "My Site" (by decide), by decide⟩

/-- C3 counterexample: with `languages = {fr: ...}` and default locale
`en`, `_set_languages_options` appends the synthesized `en` entry at the
end of the mapping, so the `all_languages` list computed by `on_config`
is `["fr", "en"]` — its first element is not the default locale, refuting
the claim that the default locale always comes first. -/
theorem c3_counterexample :
    onConfigAllLanguages [("fr", frOpts)] "en" "My Site" = ["fr", "en"] ∧
    (onConfigAllLanguages [("fr", frOpts)] "en" "My Site").head? ≠ some "en" := by
  decide

/-- C3 amended: `all_languages` always contains the default locale and
follows the insertion order of the languages mapping (without the
`"default"` pseudo-entry); the default locale keeps its configured
position when it is a key of the mapping and is otherwise appended
*last*, not first. -/
theorem c3_all_languages_order (languages : List (String × LangOptions))
    (d site : String) (hnd : (languages.map Prod.fst).Nodup) :
    d ∈ onConfigAllLanguages languages d site ∧
    (d ∉ otherLocaleKeys languages →
      onConfigAllLanguages languages d site = otherLocaleKeys languages ++ [d]) ∧
    (d ∈ otherLocaleKeys languages →
      onConfigAllLanguages languages d site = otherLocaleKeys languages) := by
  have hsub : (otherLocaleKeys languages).Sublist (languages.map Prod.fst) :=
    List.Sublist.map Prod.fst (List.eraseP_sublist languages)
  have hnd2 : (otherLocaleKeys languages).Nodup := List.Nodup.sublist hsub hnd
  unfold onConfigAllLanguages computeAllLanguages
  rw [slo_languages_keys]
  by_cases hd : d ∈ otherLocaleKeys languages
  · rw [if_pos hd, pyDedup_eq_self _ hnd2, if_pos hd]
    exact ⟨hd, fun hnd' => absurd hd hnd', fun _ => rfl⟩
  · rw [if_neg hd]
    have hnd3 : (otherLocaleKeys languages ++ [d]).Nodup := by
      simp [List.nodup_append, hnd2, hd]
    rw [pyDedup_eq_self _ hnd3, if_pos (by simp)]
    exact ⟨by simp, fun _ => rfl, fun hd' => absurd hd' hd⟩

/-- Witness for C3's amended statement at the counterexample input: the
default locale `en` is appended last. -/
theorem c3_witness :
    "en" ∈ onConfigAllLanguages [("fr", frOpts)] "en" "My Site" ∧
    onConfigAllLanguages [("fr", frOpts)] "en" "My Site" =
      otherLocaleKeys [("fr", frOpts)] ++ ["en"] :=
  ⟨(c3_all_languages_order [("fr", frOpts)] "en" "My Site" (by decide)).1,
   (c3_all_languages_order [("fr", frOpts)] "en" "My Site" (by decide)).2.1 (by decide)⟩


/-! ## C9: misconfigured `nav_translations` are ignored -/

/-- C9: when `nav_translations` is configured and none of its locale keys
matches a configured locale, `on_config` logs the mismatch (the `true`
flag) and empties the option, and title translation with the emptied
option leaves every navigation tree untouched; the check is a total
function, so the build continues. -/
theorem c9_nav_translations_mismatch_ignored (languagesKeys : List String)
    (nav_translations : List (String × List (String × String)))
    (hne : nav_translations ≠ [])
    (hmiss : ∀ lang ∈ languagesKeys, lang ∉ nav_translations.map Prod.fst) :
    checkNavTranslations languagesKeys nav_translations = ([], true) ∧
    (∀ language items, maybe_translate_titles [] language items = (items, false)) := by
  constructor
  · unfold checkNavTranslations
    rw [if_neg (by simpa [List.isEmpty_iff] using hne), if_neg ?_]
    simp only [List.any_eq_true, not_exists]
    intro lang
    rw [not_and]
    intro hl hs
    rw [listLookup_isSome_iff] at hs
    exact hmiss lang hl hs
  · intro language items
    simp [maybe_translate_titles, listLookup]

/-- Witness for C9: a `nav_translations` table keyed `de` with configured
locales `fr` and `en` is emptied (and the empty option translates
nothing). -/
theorem c9_witness :
    checkNavTranslations ["fr", "en"] [("de", [("Home", "Start")])] = ([], true) ∧
    (∀ language items, maybe_translate_titles [] language items = (items, false)) :=
  c9_nav_translations_mismatch_ignored ["fr", "en"] [("de", [("Home", "Start")])]
    (by decide) (by decide)

/-! ## C6: idempotence of navigation title translation -/

theorem listLookup_mem {β : Type} (l : List (String × β)) (k : String) (v : β)
    (h : listLookup l k = some v) : (k, v) ∈ l := by
  induction l with
  | nil => simp [listLookup] at h
  | cons p rest ih =>
    by_cases hp : p.1 = k
    · rw [listLookup, if_pos hp] at h
      cases h
      rw [← hp]
      simp
    · rw [listLookup, if_neg hp] at h
      exact List.mem_cons_of_mem _ (ih h)

theorem translateItems_length (table : List (String × String)) (items : List NavItem) :
    (translateItems table items).1.length = items.length := by
  induction items using translateItems.induct table with
  | case1 => simp [translateItems]
  | case2 title children rest ihc ihr => simp [translateItems, ihr]

theorem translateItems_isEmpty (table : List (String × String)) (items : List NavItem) :
    (translateItems table items).1.isEmpty = items.isEmpty := by
  cases items with
  | nil => simp [translateItems]
  | cons x rest => cases x; simp [translateItems, List.isEmpty]

theorem translateTitle_idem (table : List (String × String))
    (hnochain : ∀ p ∈ table,
      listLookup table p.2 = none ∨ listLookup table p.2 = some p.2)
    (t : Option String) :
    (translateTitle table (translateTitle table t).1).1 = (translateTitle table t).1 := by
  cases t with
  | none => rfl
  | some s =>
    cases hlk : listLookup table s with
    | none => simp [translateTitle, hlk]
    | some tr =>
      rcases hnochain (s, tr) (listLookup_mem table s tr hlk) with h | h <;>
        simp [translateTitle, hlk, h]

/-- Idempotence of the translation loop for a table in which no
translated title is again a (differently-mapped) source title. -/
theorem translateItems_idem (table : List (String × String))
    (hnochain : ∀ p ∈ table,
      listLookup table p.2 = none ∨ listLookup table p.2 = some p.2)
    (items : List NavItem) :
    (translateItems table (translateItems table items).1).1 =
      (translateItems table items).1 := by
  induction items using translateItems.induct table with
  | case1 => simp [translateItems]
  | case2 title children rest ihc ihr =>
    cases hch : children.isEmpty with
    | true =>
      simp [translateItems, hch, translateItems_isEmpty,
        translateTitle_idem table hnochain, ihr]
    | false =>
      have hne : ((translateItems table children).1.isEmpty) = false := by
        rw [translateItems_isEmpty]
        exact hch
      simp [translateItems, hch, hne, translateTitle_idem table hnochain, ihc, ihr]

/-- C6 counterexample: with the chained table `{A: B, B: C}` for locale
`fr`, translating the one-node tree `[A]` once gives title `B` but
translating twice gives `C` — the titles differ, refuting idempotence for
an arbitrary fixed table. -/
theorem c6_counterexample :
    titlesOf (maybe_translate_titles [("fr", chainTable)] "fr" navA).1 = [some "B"] ∧
    titlesOf (maybe_translate_titles [("fr", chainTable)] "fr"
        (maybe_translate_titles [("fr", chainTable)] "fr" navA).1).1 = [some "C"] ∧
    titlesOf (maybe_translate_titles [("fr", chainTable)] "fr"
        (maybe_translate_titles [("fr", chainTable)] "fr" navA).1).1 ≠
      titlesOf (maybe_translate_titles [("fr", chainTable)] "fr" navA).1 := by
  have h1 : titlesOf (maybe_translate_titles [("fr", chainTable)] "fr" navA).1
      = [some "B"] := by
    simp [maybe_translate_titles, translateItems, translateTitle, titlesOf,
      chainTable, navA, listLookup]
  have h2 : titlesOf (maybe_translate_titles [("fr", chainTable)] "fr"
      (maybe_translate_titles [("fr", chainTable)] "fr" navA).1).1 = [some "C"] := by
    simp [maybe_translate_titles, translateItems, translateTitle, titlesOf,
      chainTable, navA, listLookup]
  refine ⟨h1, h2, ?_⟩
  rw [h1, h2]
  simp

/-- C6 amended: `_maybe_translate_titles` is idempotent for every locale
whose translation table maps no translated title onto a further
translation — i.e., every value of the table is either not a key of the
table or maps to itself.  (The counterexample shows the restriction is
necessary: a chained table re-translates on the second pass.) -/
theorem c6_translate_titles_idempotent
    (nav_translations : List (String × List (String × String)))
    (language : String) (items : List NavItem)
    (hnochain : ∀ p ∈ (listLookup nav_translations language).getD [],
      listLookup ((listLookup nav_translations language).getD []) p.2 = none ∨
      listLookup ((listLookup nav_translations language).getD []) p.2 = some p.2) :
    (maybe_translate_titles nav_translations language
        (maybe_translate_titles nav_translations language items).1).1 =
      (maybe_translate_titles nav_translations language items).1 := by
  unfold maybe_translate_titles
  by_cases h0 : (listLookup nav_translations language).getD [] = []
  · simp [h0]
  · simp [h0, List.isEmpty_iff, translateItems_idem _ hnochain items]

/-- Witness for C6's amended statement: an unchained table `{A: B}`
translates `[A]` to `[B]` and a second pass leaves `[B]` unchanged. -/
theorem c6_witness :
    (maybe_translate_titles [("fr", [("A", "B")])] "fr"
        (maybe_translate_titles [("fr", [("A", "B")])] "fr" navA).1).1 =
      (maybe_translate_titles [("fr", [("A", "B")])] "fr" navA).1 :=
  c6_translate_titles_idempotent [("fr", [("A", "B")])] "fr" navA
    (by simp [listLookup])


/-! ## C8: search `lang` reconfiguration -/

theorem searchLangStep_foldl (langs : List String) :
    ∀ acc : List String × List String,
      acc.1 <+: (langs.foldl searchLangStep acc).1 ∧
      (∀ z, z ∈ (langs.foldl searchLangStep acc).1 ↔
        z ∈ acc.1 ∨ (z ∈ langs ∧ z ∈ LUNR_LANGUAGES)) ∧
      (langs.foldl searchLangStep acc).2 =
        acc.2 ++ langs.filter (fun x => decide (x ∉ LUNR_LANGUAGES)) := by
  induction langs with
  | nil => intro acc; simp
  | cons x rest ih =>
    intro acc
    simp only [List.foldl_cons]
    by_cases hx : x ∈ LUNR_LANGUAGES
    · by_cases hin : x ∈ acc.1
      · rw [show searchLangStep acc x = acc by simp [searchLangStep, hx, hin]]
        obtain ⟨h1, h2, h3⟩ := ih acc
        refine ⟨h1, ?_, ?_⟩
        · intro z
          rw [h2 z]
          constructor
          · rintro (h | ⟨hz1, hz2⟩)
            · exact Or.inl h
            · exact Or.inr ⟨List.mem_cons_of_mem _ hz1, hz2⟩
          · rintro (h | ⟨hz1, hz2⟩)
            · exact Or.inl h
            · rcases List.mem_cons.mp hz1 with rfl | hz1
              · exact Or.inl hin
              · exact Or.inr ⟨hz1, hz2⟩
        · rw [h3]
          simp [hx]
      · rw [show searchLangStep acc x = (acc.1 ++ [x], acc.2) by
          simp [searchLangStep, hx, hin]]
        obtain ⟨h1, h2, h3⟩ := ih (acc.1 ++ [x], acc.2)
        refine ⟨((acc.1.prefix_append [x]).trans h1), ?_, ?_⟩
        · intro z
          rw [h2 z]
          simp only [List.mem_append, List.mem_cons, List.not_mem_nil, or_false]
          constructor
          · rintro ((h | rfl) | ⟨hz1, hz2⟩)
            · exact Or.inl h
            · exact Or.inr ⟨Or.inl rfl, hx⟩
            · exact Or.inr ⟨Or.inr hz1, hz2⟩
          · rintro (h | ⟨(rfl | hz1), hz2⟩)
            · exact Or.inl (Or.inl h)
            · exact Or.inl (Or.inr rfl)
            · exact Or.inr ⟨hz1, hz2⟩
        · rw [h3]
          simp [hx]
    · rw [show searchLangStep acc x = (acc.1, acc.2 ++ [x]) by
        simp [searchLangStep, hx]]
      obtain ⟨h1, h2, h3⟩ := ih (acc.1, acc.2 ++ [x])
      refine ⟨h1, ?_, ?_⟩
      · intro z
        rw [h2 z]
        simp only [List.mem_cons]
        constructor
        · rintro (h | ⟨hz1, hz2⟩)
          · exact Or.inl h
          · exact Or.inr ⟨Or.inr hz1, hz2⟩
        · rintro (h | ⟨(rfl | hz1), hz2⟩)
          · exact Or.inl h
          · exact absurd hz2 hx
          · exact Or.inr ⟨hz1, hz2⟩
      · rw [h3]
        simp [hx]

/-- C8 counterexample: with the search plugin's `lang` option
preconfigured to the *empty* list and the supported active locale `fr`,
the plugin's option is left empty — `search_langs = config["lang"] or []`
binds a fresh list when the option is falsy, so the appends never reach
the plugin — refuting the claim that `on_config` extends the
integration's `lang` list with every supported active locale. -/
theorem c8_counterexample :
    "fr" ∈ LUNR_LANGUAGES ∧
    (searchReconfigure ["fr"] (some [])).1 = some [] := by
  constructor
  · decide
  · rfl

/-- C8 amended: when the search plugin's `lang` option is preconfigured
*non-empty*, the loop extends that very list in place: the preconfigured
entries stay as a prefix, the result holds exactly the old entries plus
every active locale supported by lunr, and exactly the unsupported
active locales are warned about; with an empty or absent option the
additions land in a fresh list and the plugin's option is unchanged. -/
theorem c8_search_lang_reconfigure (all_languages l : List String)
    (hl : l ≠ []) :
    ∃ final : List String,
      (searchReconfigure all_languages (some l)).1 = some final ∧
      l <+: final ∧
      (∀ z, z ∈ final ↔ z ∈ l ∨ (z ∈ all_languages ∧ z ∈ LUNR_LANGUAGES)) ∧
      (searchReconfigure all_languages (some l)).2 =
        all_languages.filter (fun x => decide (x ∉ LUNR_LANGUAGES)) := by
  obtain ⟨h1, h2, h3⟩ := searchLangStep_foldl all_languages (l, [])
  refine ⟨(all_languages.foldl searchLangStep (l, [])).1, ?_, h1, h2, ?_⟩
  · simp [searchReconfigure, List.isEmpty_iff, hl]
  · simp [searchReconfigure, h3]

/-- Witness for C8's amended statement at the spec's scenario
(`lang=["en"]`, active locales `fr` and `en` in `all_languages` order):
the plugin's option becomes `["en", "fr"]`, nothing is warned. -/
theorem c8_witness :
    (searchReconfigure ["fr", "en"] (some ["en"])).1 = some ["en", "fr"] ∧
    (searchReconfigure ["fr", "en"] (some ["en"])).2 = [] ∧
    (∃ final : List String,
      (searchReconfigure ["fr", "en"] (some ["en"])).1 = some final ∧
      ["en"] <+: final ∧ "fr" ∈ final) := by
  refine ⟨by decide, by decide, ?_⟩
  obtain ⟨final, h1, h2, h3, h4⟩ :=
    c8_search_lang_reconfigure ["fr", "en"] ["en"] (by decide)
  exact ⟨final, h1, h2, (h3 "fr").mpr (Or.inr ⟨by decide, by decide⟩)⟩


/-! ## C5: the configuration-tree substitution pass -/

theorem pyStrOf_str (s : String) : pyStrOf (PyVal.str s) = some s := rfl

theorem replaceLeaf_str (old : PyVal) (ns s : String) :
    replaceLeaf old (PyVal.str ns) (PyVal.str s) =
      Except.ok (PyVal.str (specLeaf (pyStrOf old) ns s)) := by
  simp only [replaceLeaf, specLeaf, pyStrOf_str]
  by_cases hc : some s = pyStrOf old
  · rw [if_pos hc, if_pos hc]
    by_cases hu : (strStartsWith "http://" ns || strStartsWith "https://" ns) = true
    · simp [is_url, hu, Bind.bind, Except.bind, Pure.pure, Except.pure, pyStrOf_str]
    · simp only [Bool.not_eq_true] at hu
      simp [is_url, hu, Bind.bind, Except.bind, Pure.pure, Except.pure, pyStrOf_str]
  · rw [if_neg hc, if_neg hc]
    by_cases hu : (strStartsWith "http://" s || strStartsWith "https://" s) = true
    · simp [is_url, hu, Bind.bind, Except.bind, Pure.pure, Except.pure, pyStrOf_str]
    · simp only [Bool.not_eq_true] at hu
      simp [is_url, hu, Bind.bind, Except.bind, Pure.pure, Except.pure, pyStrOf_str]

/-- C5 counterexample: a `Path` value that is not replaced reaches
`_is_url`, and `Path` objects have no `startswith` attribute, so the pass
raises `AttributeError` instead of returning a transformed copy (and in
particular does not preserve the `Path` value).  Refutes the claim that
the pass returns a transformed copy for every input list of strings,
`Path`s, nested dicts and nested lists. -/
theorem c5_counterexample :
    list_replace_value (PyVal.path "other") (PyVal.str "x") [PyVal.path "docs"]
      = Except.error "AttributeError: object has no attribute startswith" := by
  have hx : pyStrOf (PyVal.path "docs") ≠ pyStrOf (PyVal.path "other") := by decide
  simp [list_replace_value, replaceLeaf, hx, is_url, Bind.bind, Except.bind, Pure.pure, Except.pure]

/-- C5 amended: on trees whose leaves are all strings and with a string
replacement, the substitution pass returns the transformed copy the spec
describes — every value string-equal to the replace target is replaced,
URL-like strings are otherwise left unmodified, and every other string is
normalized through its `Path` round-trip; but a `Path` leaf that is not
replaced by a string makes the pass raise `AttributeError` (see the
counterexample), and a replaced `Path` comes back as a normalized string
rather than a `Path`. -/
theorem c5_replace_value_transform (old : PyVal) (ns : String) :
    (∀ d : List (String × PyVal), noPathLeafDict d = true →
      dict_replace_value old (PyVal.str ns) d =
        Except.ok (specReplaceDict (pyStrOf old) ns d)) ∧
    (∀ l : List PyVal, noPathLeafList l = true →
      list_replace_value old (PyVal.str ns) l =
        Except.ok (specReplaceList (pyStrOf old) ns l)) := by
  refine dict_replace_value.mutual_induct old (PyVal.str ns)
    (fun d => noPathLeafDict d = true →
      dict_replace_value old (PyVal.str ns) d =
        Except.ok (specReplaceDict (pyStrOf old) ns d))
    (fun l => noPathLeafList l = true →
      list_replace_value old (PyVal.str ns) l =
        Except.ok (specReplaceList (pyStrOf old) ns l))
    ?_ ?_ ?_ ?_ ?_ ?_ ?_ ?_ ?_ ?_
  · intro _
    simp [dict_replace_value, specReplaceDict, Pure.pure, Except.pure]
  · intro k rest d ih_rest ih_d hnp
    simp only [noPathLeafDict, noPathLeaf, Bool.and_eq_true] at hnp
    simp [dict_replace_value, specReplaceDict, specReplace, Bind.bind, Except.bind, Pure.pure, Except.pure,
      ih_rest hnp.2, ih_d hnp.1]
  · intro k rest l ih_rest ih_l hnp
    simp only [noPathLeafDict, noPathLeaf, Bool.and_eq_true] at hnp
    simp [dict_replace_value, specReplaceDict, specReplace, Bind.bind, Except.bind, Pure.pure, Except.pure,
      ih_rest hnp.2, ih_l hnp.1]
  · intro k rest s ih_rest hnp
    simp only [noPathLeafDict, noPathLeaf, Bool.and_eq_true] at hnp
    simp [dict_replace_value, specReplaceDict, specReplace, Bind.bind, Except.bind, Pure.pure, Except.pure,
      ih_rest hnp.2, replaceLeaf_str]
  · intro k rest s ih_rest hnp
    simp [noPathLeafDict, noPathLeaf] at hnp
  · intro _
    simp [list_replace_value, specReplaceList, Pure.pure, Except.pure]
  · intro rest l ih_rest ih_l hnp
    simp only [noPathLeafList, noPathLeaf, Bool.and_eq_true] at hnp
    simp [list_replace_value, specReplaceList, specReplace, Bind.bind, Except.bind, Pure.pure, Except.pure,
      ih_rest hnp.2, ih_l hnp.1]
  · intro rest d ih_rest ih_d hnp
    simp only [noPathLeafList, noPathLeaf, Bool.and_eq_true] at hnp
    simp [list_replace_value, specReplaceList, specReplace, Bind.bind, Except.bind, Pure.pure, Except.pure,
      ih_rest hnp.2, ih_d hnp.1]
  · intro rest s ih_rest hnp
    simp only [noPathLeafList, noPathLeaf, Bool.and_eq_true] at hnp
    simp [list_replace_value, specReplaceList, specReplace, Bind.bind, Except.bind, Pure.pure, Except.pure,
      ih_rest hnp.2, replaceLeaf_str]
  · intro rest s ih_rest hnp
    simp [noPathLeafList, noPathLeaf] at hnp

/-- Witness for C5's amended statement on the static-navigation use of
the pass (`_fix_config_navigation`): in a nav list holding the string
`guide.md`, a URL, and a nested section dict, replacing target
`guide.md` by `guide.fr.md` rewrites exactly the matching entries, leaves
the URL alone and normalizes `./about.md`. -/
theorem c5_witness :
    list_replace_value (PyVal.path "guide.md") (PyVal.str "guide.fr.md")
        [PyVal.str "guide.md", PyVal.str "http://x//y",
         PyVal.dict [("Section", PyVal.list [PyVal.str "./about.md"])]] =
      Except.ok (specReplaceList (pyStrOf (PyVal.path "guide.md")) "guide.fr.md"
        [PyVal.str "guide.md", PyVal.str "http://x//y",
         PyVal.dict [("Section", PyVal.list [PyVal.str "./about.md"])]]) ∧
    specReplaceList (pyStrOf (PyVal.path "guide.md")) "guide.fr.md"
        [PyVal.str "guide.md", PyVal.str "http://x//y",
         PyVal.dict [("Section", PyVal.list [PyVal.str "./about.md"])]] =
      [PyVal.str "guide.fr.md", PyVal.str "http://x//y",
       PyVal.dict [("Section", PyVal.list [PyVal.str "about.md"])]] := by
  constructor
  · exact (c5_replace_value_transform (PyVal.path "guide.md") "guide.fr.md").2
      [PyVal.str "guide.md", PyVal.str "http://x//y",
       PyVal.dict [("Section", PyVal.list [PyVal.str "./about.md"])]] (by decide)
  · have e1 : specLeaf (pyStrOf (PyVal.path "guide.md")) "guide.fr.md" "guide.md"
        = "guide.fr.md" := by decide
    have e2 : specLeaf (pyStrOf (PyVal.path "guide.md")) "guide.fr.md" "http://x//y"
        = "http://x//y" := by decide
    have e3 : specLeaf (pyStrOf (PyVal.path "guide.md")) "guide.fr.md" "./about.md"
        = "about.md" := by decide
    simp [specReplaceList, specReplace, specReplaceDict, e1, e2, e3]


/-! ## C4: helper lemmas on the heap and the clone closed forms -/

theorem Heap.read_append_left {V : Type} [Inhabited V] (cells ext : List V) (r : Nat)
    (hr : r < cells.length) :
    (Heap.mk (cells ++ ext)).read r = (Heap.mk cells).read r := by
  show (cells ++ ext).getD r default = cells.getD r default
  exact List.getD_append _ _ _ _ hr

theorem deepcopyCfg_eq {V : Type} [Inhabited V] :
    ∀ (c : CfgDict) (h : Heap V), (∀ p ∈ c, p.2 < h.cells.length) →
      deepcopyCfg h c =
        (⟨h.cells ++ c.map (fun p => h.read p.2)⟩, mkCopyFields h.cells.length c) := by
  intro c
  induction c with
  | nil =>
    intro h _
    simp [deepcopyCfg, mkCopyFields]
  | cons kv rest ih =>
    intro h hv
    simp only [deepcopyCfg, Heap.alloc, mkCopyFields]
    rw [ih ⟨h.cells ++ [h.read kv.2]⟩
      (fun p hp => lt_of_lt_of_le (hv p (List.mem_cons_of_mem _ hp)) (by simp))]
    have hread : rest.map (fun p => (⟨h.cells ++ [h.read kv.2]⟩ : Heap V).read p.2)
        = rest.map (fun p => h.read p.2) :=
      List.map_congr_left
        (fun p hp => Heap.read_append_left _ _ _ (hv p (List.mem_cons_of_mem _ hp)))
    simp [hread, List.append_assoc]

theorem cloneLoop_eq {V : Type} [Inhabited V] (c2 tail : CfgDict) :
    ∀ (langs : List String) (h : Heap V), (∀ p ∈ c2, p.2 < h.cells.length) →
      cloneLoop c2 tail h langs =
        (⟨h.cells ++ (List.replicate langs.length (c2.map (fun p => h.read p.2))).flatten⟩,
         mkCopies c2 tail h.cells.length langs) := by
  intro langs
  induction langs with
  | nil =>
    intro h hv
    simp [cloneLoop, mkCopies]
  | cons lang rest ih =>
    intro h hv
    simp only [cloneLoop]
    rw [deepcopyCfg_eq c2 h hv]
    rw [ih ⟨h.cells ++ c2.map (fun p => h.read p.2)⟩
      (fun p hp => lt_of_lt_of_le (hv p hp) (by simp))]
    have hread : c2.map (fun p => (⟨h.cells ++ c2.map (fun q => h.read q.2)⟩ : Heap V).read p.2)
        = c2.map (fun p => h.read p.2) :=
      List.map_congr_left (fun p hp => Heap.read_append_left _ _ _ (hv p hp))
    simp [hread, mkCopies, List.replicate_succ, List.append_assoc]

theorem mkCopyFields_keys (c : CfgDict) :
    ∀ start : Nat, (mkCopyFields start c).map Prod.fst = c.map Prod.fst := by
  induction c with
  | nil => intro start; rfl
  | cons kv rest ih => intro start; simp [mkCopyFields, ih]

theorem mkCopyFields_lookup_none (c : CfgDict) :
    ∀ (start : Nat) (k : String), listLookup c k = none →
      listLookup (mkCopyFields start c) k = none := by
  induction c with
  | nil => intro start k _; rfl
  | cons kv rest ih =>
    intro start k hk
    rw [listLookup] at hk
    by_cases hp : kv.1 = k
    · rw [if_pos hp] at hk
      cases hk
    · rw [if_neg hp] at hk
      simp [mkCopyFields, listLookup, hp, ih _ _ hk]

theorem mkCopyFields_lookup_some (c : CfgDict) :
    ∀ (start : Nat) (k : String) (r0 : Nat), listLookup c k = some r0 →
      ∃ j, j < c.length ∧ listLookup (mkCopyFields start c) k = some (start + j) ∧
        c.get? j = some (k, r0) := by
  induction c with
  | nil =>
    intro start k r0 hk
    cases hk
  | cons kv rest ih =>
    intro start k r0 hk
    rw [listLookup] at hk
    by_cases hp : kv.1 = k
    · rw [if_pos hp] at hk
      cases hk
      refine ⟨0, by simp, by simp [mkCopyFields, listLookup, hp], ?_⟩
      simp [← hp]
    · rw [if_neg hp] at hk
      obtain ⟨j, hj, hl, hg⟩ := ih (start + 1) k r0 hk
      refine ⟨j + 1, by simpa using Nat.succ_lt_succ hj, ?_, by simpa using hg⟩
      rw [mkCopyFields, listLookup, if_neg hp, hl]
      congr 1
      omega

theorem mkCopyFields_lookup_bounds (c : CfgDict) :
    ∀ (start : Nat) (k : String) (r : Nat),
      listLookup (mkCopyFields start c) k = some r →
      start ≤ r ∧ r < start + c.length := by
  induction c with
  | nil =>
    intro start k r hr
    cases hr
  | cons kv rest ih =>
    intro start k r hr
    rw [mkCopyFields, listLookup] at hr
    by_cases hp : kv.1 = k
    · rw [if_pos hp] at hr
      cases hr
      simp only [List.length_cons]
      exact ⟨Nat.le_refl _, by omega⟩
    · rw [if_neg hp] at hr
      obtain ⟨hb1, hb2⟩ := ih (start + 1) k r hr
      simp only [List.length_cons]
      exact ⟨by omega, by omega⟩

theorem mkCopies_map_fst (c2 tail : CfgDict) :
    ∀ (langs : List String) (start : Nat),
      (mkCopies c2 tail start langs).map Prod.fst = langs := by
  intro langs
  induction langs with
  | nil => intro start; rfl
  | cons lang rest ih => intro start; simp [mkCopies, ih]

theorem mkCopies_mem (c2 tail : CfgDict) :
    ∀ (langs : List String) (start : Nat) (lang : String) (copy : CfgDict),
      (lang, copy) ∈ mkCopies c2 tail start langs →
      ∃ i, i < langs.length ∧ langs.get? i = some lang ∧
        copy = mkCopyFields (start + c2.length * i) c2 ++ tail := by
  intro langs
  induction langs with
  | nil =>
    intro start lang copy h
    cases h
  | cons l0 rest ih =>
    intro start lang copy h
    rw [mkCopies] at h
    rcases List.mem_cons.mp h with h | h
    · have h1 : lang = l0 := congrArg Prod.fst h
      have h2 : copy = mkCopyFields start c2 ++ tail := congrArg Prod.snd h
      refine ⟨0, by simp, by simp [h1], ?_⟩
      rw [h2]
      simp
    · obtain ⟨i, hi, hg, hc⟩ := ih (start + c2.length) lang copy h
      refine ⟨i + 1, by simpa using Nat.succ_lt_succ hi, by simpa using hg, ?_⟩
      rw [hc]
      congr 2
      ring

theorem flatten_replicate_getD {V : Type} (vals : List V) (d : V) :
    ∀ (i n j : Nat), i < n → j < vals.length →
      ((List.replicate n vals).flatten).getD (vals.length * i + j) d = vals.getD j d := by
  intro i
  induction i with
  | zero =>
    intro n j hn hj
    cases n with
    | zero => omega
    | succ n' =>
      rw [List.replicate_succ, List.flatten_cons]
      simpa using List.getD_append vals _ d j hj
  | succ i' ih =>
    intro n j hn hj
    cases n with
    | zero => omega
    | succ n' =>
      rw [List.replicate_succ, List.flatten_cons]
      rw [List.getD_append_right vals _ d _ (by
        have : vals.length * (i' + 1) = vals.length * i' + vals.length := by ring
        omega)]
      have harith : vals.length * (i' + 1) + j - vals.length = vals.length * i' + j := by
        have : vals.length * (i' + 1) = vals.length * i' + vals.length := by ring
        omega
      rw [harith]
      exact ih n' j (Nat.lt_of_succ_lt_succ hn) hj

theorem keys_eraseP_self {β : Type} (l : List (String × β)) (k : String)
    (h : (l.map Prod.fst).Nodup) :
    k ∉ ((l.eraseP (fun p => decide (p.1 = k))).map Prod.fst) := by
  induction l with
  | nil => simp
  | cons p rest ih =>
    simp only [List.map_cons, List.nodup_cons] at h
    by_cases hp : p.1 = k
    · rw [List.eraseP_cons_of_pos (by simpa using hp)]
      rw [← hp]
      exact h.1
    · rw [List.eraseP_cons_of_neg (by simpa using hp)]
      simp only [List.map_cons, List.mem_cons]
      push_neg
      exact ⟨fun hk => hp hk.symm, ih h.2⟩


theorem Heap.read_write_ne {V : Type} [Inhabited V] (h : Heap V) (r r2 : Nat) (v : V)
    (hne : r ≠ r2) : (h.write r v).read r2 = h.read r2 := by
  simp [Heap.write, Heap.read, List.getD_eq_getElem?_getD, List.getElem?_set_ne hne]

theorem listLookup_append_left {β : Type} (l1 l2 : List (String × β)) (k : String) (v : β)
    (hl : listLookup l1 k = some v) : listLookup (l1 ++ l2) k = some v := by
  induction l1 with
  | nil => cases hl
  | cons p rest ih =>
    rw [listLookup] at hl
    by_cases hp : p.1 = k
    · rw [if_pos hp] at hl
      simpa [listLookup, hp] using hl
    · rw [if_neg hp] at hl
      simpa [listLookup, hp] using ih hl

theorem listLookup_eraseP_ne {β : Type} (l : List (String × β)) (k2 k : String)
    (hne : k2 ≠ k) :
    listLookup (l.eraseP (fun p => decide (p.1 = k2))) k = listLookup l k := by
  induction l with
  | nil => rfl
  | cons p rest ih =>
    by_cases hp : p.1 = k2
    · rw [List.eraseP_cons_of_pos (by simpa using hp)]
      rw [listLookup, if_neg (by rw [hp]; exact fun hk => hne hk)]
    · rw [List.eraseP_cons_of_neg (by simpa using hp)]
      rw [listLookup, listLookup]
      by_cases hk : p.1 = k
      · rw [if_pos hk, if_pos hk]
      · rw [if_neg hk, if_neg hk, ih]

theorem copy_ranges_disjoint (m start i j x : Nat) (hij : i ≠ j)
    (hxi1 : start + m * i ≤ x) (hxi2 : x < start + m * i + m)
    (hxj1 : start + m * j ≤ x) (hxj2 : x < start + m * j + m) : False := by
  rcases Nat.lt_or_ge i j with hlt | hge
  · have h1 : m * (i + 1) ≤ m * j := Nat.mul_le_mul_left m hlt
    have h2 : m * (i + 1) = m * i + m := by ring
    omega
  · have hlt : j < i := Nat.lt_of_le_of_ne hge (Ne.symm hij)
    have h1 : m * (j + 1) ≤ m * i := Nat.mul_le_mul_left m hlt
    have h2 : m * (j + 1) = m * j + m := by ring
    omega

theorem mkCopyFields_mem_bounds (c : CfgDict) :
    ∀ (start : Nat) (p : String × Nat), p ∈ mkCopyFields start c →
      start ≤ p.2 ∧ p.2 < start + c.length := by
  induction c with
  | nil =>
    intro start p hp
    cases hp
  | cons kv rest ih =>
    intro start p hp
    rw [mkCopyFields] at hp
    rcases List.mem_cons.mp hp with hp | hp
    · rw [hp]
      simp only [List.length_cons]
      exact ⟨Nat.le_refl _, by omega⟩
    · obtain ⟨h1, h2⟩ := ih (start + 1) p hp
      simp only [List.length_cons]
      exact ⟨by omega, by omega⟩

theorem tailOf_mem (pluginsRef : Nat) (hooksShared : Option Nat) (p : String × Nat)
    (hp : p ∈ tailOf pluginsRef hooksShared) :
    p = ("plugins", pluginsRef) ∨ ∃ r, hooksShared = some r ∧ p = ("hooks", r) := by
  cases hooksShared with
  | none =>
    rcases List.mem_cons.mp hp with hp | hp
    · exact Or.inl hp
    · cases hp
  | some r =>
    rcases List.mem_cons.mp hp with hp | hp
    · exact Or.inl hp
    · rcases List.mem_cons.mp hp with hp | hp
      · exact Or.inr ⟨r, rfl, hp⟩
      · cases hp

theorem tailOf_lookup_other (pluginsRef : Nat) (hooksShared : Option Nat) (k : String)
    (h1 : k ≠ "plugins") (h2 : k ≠ "hooks") :
    listLookup (tailOf pluginsRef hooksShared) k = none := by
  have hp : ¬("plugins" = k) := fun hk => h1 hk.symm
  have hh : ¬("hooks" = k) := fun hk => h2 hk.symm
  cases hooksShared <;> simp [tailOf, listLookup, hp, hh]

theorem tailOf_lookup_plugins (pluginsRef : Nat) (hooksShared : Option Nat) :
    listLookup (tailOf pluginsRef hooksShared) "plugins" = some pluginsRef := by
  cases hooksShared <;> simp [tailOf, listLookup]

theorem cloneConfigs_some {V : Type} [Inhabited V] (truthy : V → Bool)
    (allLangs : List String) (config : CfgDict) (h : Heap V)
    (pluginsRef : Nat) (c2 : CfgDict)
    (hpl : pyPop (pyPop config "hooks").2 "plugins" = (some pluginsRef, c2)) :
    cloneConfigs truthy allLangs config h =
      some ⟨(cloneLoop c2
          (tailOf pluginsRef (hooksSharedOf truthy h (pyPop config "hooks").1)) h allLangs).2,
        c2 ++ tailOf pluginsRef (hooksSharedOf truthy h (pyPop config "hooks").1),
        (cloneLoop c2
          (tailOf pluginsRef (hooksSharedOf truthy h (pyPop config "hooks").1)) h allLangs).1⟩ := by
  unfold cloneConfigs
  simp only [hpl]


/-- C4: the cloning pass of `on_config` produces one per-locale
configuration per active locale; each one shares the `plugins` (and
truthy `hooks`) cells — and, after `on_env`, the render-environment
cell — with the base configuration by reference, while every other field
of every copy is a fresh cell (address at or beyond the original store)
holding a copy of the base field's value, the base keeps its original
cells; and mutating such a deep-copied cell of one locale's configuration
changes no field read of the base configuration or of any other locale's
configuration. -/
theorem c4_on_config_clone (V : Type) [Inhabited V] (truthy : V → Bool)
    (allLangs : List String) (config : CfgDict) (h : Heap V) (envRef : Nat)
    (res : CloneResult V)
    (hres : cloneConfigs truthy allLangs config h = some res)
    (hv : ∀ p ∈ config, p.2 < h.cells.length)
    (hnd : (config.map Prod.fst).Nodup)
    (henv : "env" ∉ config.map Prod.fst) :
    (res.i18n_configs.map Prod.fst = allLangs) ∧
    (∀ lang copy, (lang, copy) ∈ onEnvAssign res.i18n_configs allLangs envRef →
      listLookup copy "env" = some envRef) ∧
    (∀ lang copy, (lang, copy) ∈ res.i18n_configs →
      listLookup copy "plugins" = listLookup res.base "plugins" ∧
      (listLookup res.base "plugins").isSome = true ∧
      listLookup copy "hooks" = listLookup res.base "hooks") ∧
    (∀ lang copy k r, (lang, copy) ∈ res.i18n_configs →
      k ≠ "plugins" → k ≠ "hooks" → listLookup copy k = some r →
      h.cells.length ≤ r ∧
      ∃ r0, listLookup config k = some r0 ∧ listLookup res.base k = some r0 ∧
        r0 < h.cells.length ∧ res.heap.read r = h.read r0) ∧
    (∀ lang copy k r v, (lang, copy) ∈ res.i18n_configs →
      k ≠ "plugins" → k ≠ "hooks" → listLookup copy k = some r →
      (∀ k2, readField (res.heap.write r v) res.base k2 =
        readField res.heap res.base k2) ∧
      (∀ langB copyB k2, (langB, copyB) ∈ res.i18n_configs → langB ≠ lang →
        readField (res.heap.write r v) copyB k2 =
          readField res.heap copyB k2)) := by
  rcases hpl : pyPop (pyPop config "hooks").2 "plugins" with ⟨plo, c2⟩
  cases plo with
  | none =>
    unfold cloneConfigs at hres
    simp only [hpl] at hres
    exact Option.noConfusion hres
  | some pluginsRef =>
    rw [cloneConfigs_some truthy allLangs config h pluginsRef c2 hpl] at hres
    injection hres with hres2
    subst hres2
    have hc1eq : (pyPop config "hooks").2 =
        config.eraseP (fun p => decide (p.1 = "hooks")) := rfl
    have hc2eq : c2 = (pyPop config "hooks").2.eraseP
        (fun p => decide (p.1 = "plugins")) := by
      have := congrArg Prod.snd hpl
      simpa [pyPop] using this.symm
    have hplref : listLookup (pyPop config "hooks").2 "plugins" = some pluginsRef := by
      have := congrArg Prod.fst hpl
      simpa [pyPop] using this
    have hc1sub : ((pyPop config "hooks").2).Sublist config := by
      rw [hc1eq]
      exact List.eraseP_sublist config
    have hc2sub : c2.Sublist config := by
      rw [hc2eq]
      exact (List.eraseP_sublist _).trans hc1sub
    have hv2 : ∀ p ∈ c2, p.2 < h.cells.length :=
      fun p hp => hv p (hc2sub.subset hp)
    have hnd1 : (((pyPop config "hooks").2).map Prod.fst).Nodup :=
      List.Nodup.sublist (List.Sublist.map Prod.fst hc1sub) hnd
    have hplug_notin : "plugins" ∉ c2.map Prod.fst := by
      rw [hc2eq]
      exact keys_eraseP_self _ "plugins" hnd1
    have hhooks_notin : "hooks" ∉ c2.map Prod.fst := by
      intro hmem
      have hsub : c2.Sublist (pyPop config "hooks").2 := by
        rw [hc2eq]
        exact List.eraseP_sublist _
      have hmem2 : "hooks" ∈ ((pyPop config "hooks").2).map Prod.fst :=
        (List.Sublist.map Prod.fst hsub).subset hmem
      rw [hc1eq] at hmem2
      exact keys_eraseP_self config "hooks" hnd hmem2
    have henv2 : "env" ∉ c2.map Prod.fst :=
      fun hmem => henv (List.Sublist.subset (List.Sublist.map Prod.fst hc2sub) hmem)
    set hs := hooksSharedOf truthy h (pyPop config "hooks").1 with hhs
    set tl := tailOf pluginsRef hs with htl
    have htl_refs : ∀ p ∈ tl, p.2 < h.cells.length := by
      intro p hp
      rcases tailOf_mem pluginsRef hs p hp with hp | ⟨r2, hr2, hp⟩
      · rw [hp]
        exact hv _ (hc1sub.subset (listLookup_mem _ _ _ hplref))
      · rw [hp]
        have hor : (pyPop config "hooks").1 = some r2 := by
          rw [hhs] at hr2
          unfold hooksSharedOf at hr2
          rcases hlk : (pyPop config "hooks").1 with _ | r3
          · rw [hlk] at hr2
            dsimp only at hr2
            cases hr2
          · rw [hlk] at hr2
            dsimp only at hr2
            by_cases ht : truthy (h.read r3) = true
            · rw [if_pos ht] at hr2
              cases hr2
              rfl
            · rw [if_neg ht] at hr2
              cases hr2
        have : listLookup config "hooks" = some r2 := by
          simpa [pyPop] using hor
        exact hv _ (listLookup_mem _ _ _ this)
    have hcl := cloneLoop_eq c2 tl allLangs h hv2
    simp only [hcl]
    set vals := c2.map (fun p => h.read p.2) with hvals
    have hvl : vals.length = c2.length := by simp [hvals]
    set n := allLangs.length with hn
    set bigHeap : Heap V := ⟨h.cells ++ (List.replicate n vals).flatten⟩ with hbig
    -- a copy's lookup for a non-shared key, decomposed
    have hcopy_lookup : ∀ lang copy k r, (lang, copy) ∈ mkCopies c2 tl h.cells.length allLangs →
        k ≠ "plugins" → k ≠ "hooks" → listLookup copy k = some r →
        ∃ i j r0, i < n ∧ j < c2.length ∧ listLookup c2 k = some r0 ∧
          c2.get? j = some (k, r0) ∧
          r = h.cells.length + c2.length * i + j ∧
          allLangs.get? i = some lang := by
      intro lang copy k r hmem hk1 hk2 hlk
      obtain ⟨i, hi, hg, hcopy⟩ := mkCopies_mem c2 tl allLangs h.cells.length lang copy hmem
      rw [hcopy] at hlk
      rcases hc2lk : listLookup c2 k with _ | r0
      · rw [listLookup_append_right _ _ _ (by
          rw [mkCopyFields_keys]
          exact fun hmem2 => (listLookup_eq_none_iff c2 k).mp hc2lk hmem2)] at hlk
        rw [tailOf_lookup_other pluginsRef hs k hk1 hk2] at hlk
        cases hlk
      · obtain ⟨j, hj, hl2, hget⟩ :=
          mkCopyFields_lookup_some c2 (h.cells.length + c2.length * i) k r0 hc2lk
        rw [listLookup_append_left _ _ _ _ hl2] at hlk
        injection hlk with hlk
        exact ⟨i, j, r0, hi, hj, rfl, hget, by omega, hg⟩
    -- frame helper: a write at a cell no binding of cfg points to changes no read
    have hframe : ∀ (r : Nat) (v : V) (cfg : CfgDict), (∀ p ∈ cfg, p.2 ≠ r) →
        ∀ k2, readField (bigHeap.write r v) cfg k2 = readField bigHeap cfg k2 := by
      intro r v cfg hne k2
      unfold readField
      rcases hlk : listLookup cfg k2 with _ | r2
      · rfl
      · simp only [Option.map_some']
        rw [Heap.read_write_ne _ _ _ _ (fun he => hne _ (listLookup_mem _ _ _ hlk) he.symm)]
    refine ⟨mkCopies_map_fst c2 tl allLangs h.cells.length, ?_, ?_, ?_, ?_⟩
    · -- env sharing after on_env
      intro lang copy hmem
      obtain ⟨q, hq, hfq⟩ := List.mem_map.mp hmem
      obtain ⟨ql, qc⟩ := q
      have hql : ql ∈ allLangs := by
        have hmf := mkCopies_map_fst c2 tl allLangs h.cells.length
        rw [← hmf]
        exact List.mem_map_of_mem Prod.fst hq
      dsimp only at hfq
      rw [if_pos hql] at hfq
      have hcopy : dictSet qc "env" envRef = copy := congrArg Prod.snd hfq
      obtain ⟨i, hi, hg, hq2⟩ := mkCopies_mem c2 tl allLangs h.cells.length ql qc hq
      have henvnone : listLookup qc "env" = none := by
        rw [hq2]
        rw [listLookup_append_right _ _ _ (by
          rw [mkCopyFields_keys]
          exact henv2)]
        exact tailOf_lookup_other pluginsRef hs "env" (by decide) (by decide)
      rw [← hcopy]
      unfold dictSet
      rw [henvnone]
      simp only [Option.isSome_none, Bool.false_eq_true, if_false]
      rw [listLookup_append_right _ _ _ (by
        exact (listLookup_eq_none_iff _ _).mp henvnone)]
      simp [listLookup]
    · -- plugins and hooks shared with the base
      intro lang copy hmem
      obtain ⟨i, hi, hg, hcopy⟩ := mkCopies_mem c2 tl allLangs h.cells.length lang copy hmem
      have hplug_none : listLookup c2 "plugins" = none :=
        (listLookup_eq_none_iff _ _).mpr hplug_notin
      have hhooks_none : listLookup c2 "hooks" = none :=
        (listLookup_eq_none_iff _ _).mpr hhooks_notin
      have hmkkeys : ∀ k, listLookup c2 k = none →
          listLookup copy k = listLookup tl k := by
        intro k hk
        rw [hcopy]
        exact listLookup_append_right _ _ _ (by
          rw [mkCopyFields_keys]
          exact (listLookup_eq_none_iff c2 k).mp hk)
      have hbase_plug : listLookup (c2 ++ tl) "plugins" = listLookup tl "plugins" :=
        listLookup_append_right _ _ _ hplug_notin
      have hbase_hooks : listLookup (c2 ++ tl) "hooks" = listLookup tl "hooks" :=
        listLookup_append_right _ _ _ hhooks_notin
      refine ⟨?_, ?_, ?_⟩
      · rw [hmkkeys "plugins" hplug_none, hbase_plug]
      · rw [hbase_plug, tailOf_lookup_plugins]
        rfl
      · rw [hmkkeys "hooks" hhooks_none, hbase_hooks]
    · -- copied fields: fresh cells holding copies of the base values
      intro lang copy k r hmem hk1 hk2 hlk
      obtain ⟨i, j, r0, hi, hj, hc2lk, hget, hr, hg⟩ :=
        hcopy_lookup lang copy k r hmem hk1 hk2 hlk
      have hcfg : listLookup config k = some r0 := by
        rw [← listLookup_eraseP_ne config "hooks" k (Ne.symm hk2), ← hc1eq,
          ← listLookup_eraseP_ne (pyPop config "hooks").2 "plugins" k (Ne.symm hk1),
          ← hc2eq]
        exact hc2lk
      have hr0lt : r0 < h.cells.length := hv2 _ (listLookup_mem _ _ _ hc2lk)
      refine ⟨by omega, r0, hcfg, listLookup_append_left _ _ _ _ hc2lk, hr0lt, ?_⟩
      show bigHeap.read r = h.read r0
      rw [hbig]
      show (h.cells ++ (List.replicate n vals).flatten).getD r default = h.read r0
      rw [List.getD_append_right _ _ _ _ (by omega)]
      have hidx : r - h.cells.length = vals.length * i + j := by
        rw [hvl]
        omega
      rw [hidx, flatten_replicate_getD vals default i n j hi (by rw [hvl]; exact hj)]
      rw [List.getD_eq_getElem?_getD, hvals, List.getElem?_map]
      rw [← List.get?_eq_getElem?, hget]
      rfl
    · -- frame: writes to one locale's copied cells are invisible elsewhere
      intro lang copy k r v hmem hk1 hk2 hlk
      obtain ⟨i, j, r0, hi, hj, hc2lk, hget, hr, hg⟩ :=
        hcopy_lookup lang copy k r hmem hk1 hk2 hlk
      constructor
      · exact hframe r v (c2 ++ tl) (by
          intro p hp
          rcases List.mem_append.mp hp with hp | hp
          · have := hv2 p hp
            omega
          · have := htl_refs p hp
            omega)
      · intro langB copyB k2 hmemB hlangB
        obtain ⟨iB, hiB, hgB, hcopyB⟩ :=
          mkCopies_mem c2 tl allLangs h.cells.length langB copyB hmemB
        have hij : iB ≠ i := by
          intro he
          rw [he] at hgB
          rw [hg] at hgB
          injection hgB with hgB
          exact hlangB hgB.symm
        refine hframe r v copyB ?_ k2
        intro p hp
        rw [hcopyB] at hp
        rcases List.mem_append.mp hp with hp | hp
        · obtain ⟨hb1, hb2⟩ := mkCopyFields_mem_bounds c2 _ p hp
          intro he
          refine copy_ranges_disjoint c2.length h.cells.length iB i p.2 hij
            hb1 (by omega) ?_ ?_
          · omega
          · omega
        · have := htl_refs p hp
          omega


/-- Witness for C4 on the concrete example: the clone pass yields the
expected copies, one per language; writing value 99 into the `en` copy's
fresh `site_name` cell (address 4) changes no field read of the base, and
after `on_env` the `en` copy holds the shared environment cell. -/
theorem c4_witness :
    cloneConfigs (fun v : Nat => decide (v ≠ 0)) ["en", "fr"] exCloneCfg exCloneHeap
      = some exCloneRes ∧
    exCloneRes.i18n_configs.map Prod.fst = ["en", "fr"] ∧
    (∀ k2, readField (exCloneRes.heap.write 4 99) exCloneRes.base k2 =
      readField exCloneRes.heap exCloneRes.base k2) ∧
    listLookup (exCopyEn ++ [("env", 9)]) "env" = some 9 := by
  have hres : cloneConfigs (fun v : Nat => decide (v ≠ 0)) ["en", "fr"] exCloneCfg exCloneHeap
      = some exCloneRes := by decide
  have H := c4_on_config_clone Nat (fun v => decide (v ≠ 0)) ["en", "fr"] exCloneCfg
    exCloneHeap 9 exCloneRes hres (by decide) (by decide) (by decide)
  refine ⟨hres, H.1, ?_, ?_⟩
  · intro k2
    exact (H.2.2.2.2 "en" exCopyEn "site_name" 4 99 (by decide) (by decide) (by decide)
      (by decide)).1 k2
  · exact H.2.1 "en" (exCopyEn ++ [("env", 9)]) (by decide)

end I18n
